import Mathlib

/-!
Shallow embedding of the MDX container parser (`src/parser.rs`) of the
mdict-no-minilzo crate, together with proofs about the claims of its
specification.

Modelling conventions:
* bytes are `Nat` values below 256 and byte buffers are `List Nat`;
* fallible Rust code returns `Except Error`;
* a Rust slice-index panic (an out-of-range `&s[a..b]` or `s[i]`) is modelled
  by the distinguished outcome `Error.outOfBounds`, which is not a value of
  the crate error enum;
* the external crates (zlib, rust-lzo, salsa20, ripemd, encoding_rs) are
  collaborators, passed in as the function parameters of `Externals`.
-/

namespace Mdict

/-- Error kinds of the crate (`Error` in the crate root), plus `outOfBounds`,
which models a Rust slice-index panic (not a crate error value). -/
inductive Error where
  | noVersion
  | invalidVersion (s : String)
  | unsupportedVersion (n : Nat)
  | noTitle
  | invalidEncoding (s : String)
  | invalidCheckSum (sec : String)
  | invalidEncryptMethod (n : Nat)
  | invalidCompressMethod (n : Nat)
  | invalidData
  | ioError
  | outOfBounds
  deriving DecidableEq

/-- Text codec of the dictionary (`encoding_rs::Encoding`): the parser only
distinguishes UTF-16LE, UTF-8 and everything else; `other` carries the
codec label returned by `Encoding::name()`. -/
inductive Enc where
  | utf8
  | utf16le
  | other (label : String)
  deriving DecidableEq

/-- File format version (`Version` in parser.rs): V1 uses 32-bit integers,
V2 uses 64-bit integers. -/
inductive Version where
  | v1
  | v2
  deriving DecidableEq

/-- `BlockEntryInfo` of mdx.rs: sizes of one compressed block. -/
structure BlockEntryInfo where
  compressed_size : Nat
  decompressed_size : Nat
  deriving DecidableEq

/-- `KeyEntry` of mdx.rs: a record-stream offset and the normalised key
text (the bytes of the normalised string). -/
structure KeyEntry where
  offset : Nat
  text : List Nat
  deriving DecidableEq

instance : Inhabited KeyEntry := ⟨⟨0, []⟩⟩

/-- `RecordOffset` of mdx.rs. -/
structure RecordOffset where
  buf_offset : Nat
  block_offset : Nat
  record_size : Nat
  decomp_size : Nat
  deriving DecidableEq

/-- External collaborator functions (the zlib, rust-lzo, salsa20, ripemd and
encoding_rs crates). `zlib` and `lzo` return `none` on a decompression
error; `decodeText` gives the bytes of the string decoded by
`Encoding::decode`. -/
structure Externals where
  zlib : List Nat → Option (List Nat)
  lzo : List Nat → Nat → Option (List Nat)
  salsa20 : List Nat → List Nat → List Nat
  ripemd128 : List Nat → List Nat
  decodeText : Enc → List Nat → List Nat

/-- The dictionary handle (`Mdx` of mdx.rs) restricted to the fields the
lookup path reads: the sorted key index, the record-block table, the bytes
of the underlying reader (`file`), the absolute offset of the record data,
and the optional record cache (an association list from `buf_offset` to
decoded block bytes). -/
structure Mdx where
  key_entries : List KeyEntry
  records_info : List BlockEntryInfo
  file : List Nat
  record_block_offset : Nat
  record_cache : Option (List (Nat × List Nat))
  deriving DecidableEq

/-- Big-endian u32 read (`BE::read_u32`) of the first four bytes. -/
def beU32 (l : List Nat) : Nat :=
  ((l.getD 0 0 * 256 + l.getD 1 0) * 256 + l.getD 2 0) * 256 + l.getD 3 0

/-- Big-endian u64 read (`BE::read_u64`) of the first eight bytes. -/
def beU64 (l : List Nat) : Nat :=
  ((((((l.getD 0 0 * 256 + l.getD 1 0) * 256 + l.getD 2 0) * 256 + l.getD 3 0) * 256
    + l.getD 4 0) * 256 + l.getD 5 0) * 256 + l.getD 6 0) * 256 + l.getD 7 0

/-- Little-endian u32 read (`LE::read_u32`) of the first four bytes. -/
def leU32 (l : List Nat) : Nat :=
  ((l.getD 3 0 * 256 + l.getD 2 0) * 256 + l.getD 1 0) * 256 + l.getD 0 0

/-- One step of the rolling Adler-32 state `(a, b)`. -/
def adler32Step (ab : Nat × Nat) (byte : Nat) : Nat × Nat :=
  let a := (ab.1 + byte) % 65521
  (a, (ab.2 + a) % 65521)

/-- `RollingAdler32::from_buffer(data).hash()`: Adler-32 of a buffer. -/
def adler32 (data : List Nat) : Nat :=
  let ab := data.foldl adler32Step (1, 0)
  ab.2 * 65536 + ab.1

/-- `check_adler32` of parser.rs: the section name in the error is the
string literal "header" at every call site. -/
def check_adler32 (data : List Nat) (checksum : Nat) : Except Error Unit :=
  if adler32 data ≠ checksum then .error (.invalidCheckSum "header")
  else .ok ()

/-- The nibble rotation `b >> 4 | b << 4` on a u8. -/
def swapNibbles (b : Nat) : Nat :=
  (b % 256) / 16 + (b % 16) * 16

/-- `key[i % key.len()]` (out-of-range and empty-key reads give 0; the code
never calls the cipher with an empty key). -/
def keyByte (key : List Nat) (i : Nat) : Nat :=
  key.getD (i % key.length) 0

/-- Loop body of `fast_decrypt`: `prev` is the previous input byte
(initially 0x36), `i` the byte index. -/
def fastDecryptGo (key : List Nat) : Nat → Nat → List Nat → List Nat
  | _, _, [] => []
  | prev, i, b :: rest =>
    (swapNibbles b ^^^ prev ^^^ (i % 256) ^^^ keyByte key i) ::
      fastDecryptGo key b (i + 1) rest

/-- `fast_decrypt` of parser.rs. -/
def fast_decrypt (encrypted key : List Nat) : List Nat :=
  fastDecryptGo key 0x36 0 encrypted

/-- The encryption direction matching `fast_decrypt`: XOR chain first,
nibble swap second, with `prev` chained on the output (ciphertext) byte.
This function is not in the source; it is the explicit inverse exhibited
for the bijectivity theorem about `fast_decrypt`. -/
def fastEncryptGo (key : List Nat) : Nat → Nat → List Nat → List Nat
  | _, _, [] => []
  | prev, i, b :: rest =>
    let t := swapNibbles (b ^^^ prev ^^^ (i % 256) ^^^ keyByte key i)
    t :: fastEncryptGo key t (i + 1) rest

/-- Encryption direction companion of `fast_decrypt` (see `fastEncryptGo`). -/
def fastEncrypt (plain key : List Nat) : List Nat :=
  fastEncryptGo key 0x36 0 plain

/-- `make_key` inside `decode_block`: `RIPEMD128(data[4..8])`. The source
indexes `data[4..8]`, so a slice shorter than 8 bytes panics; `decode_block`
always passes the 4-byte checksum slice, so in the source this function
panics whenever it is reached. -/
def make_key (ext : Externals) (data : List Nat) : Except Error (List Nat) :=
  if data.length < 8 then .error .outOfBounds
  else .ok (ext.ripemd128 ((data.drop 4).take 4))

/-- `decode_block` of parser.rs: 8-byte prefix (LE encoding word, BE
Adler-32), decrypt per method nibble, decompress per method nibble, verify
the Adler-32 of the decompressed payload. -/
def decode_block (ext : Externals) (slice : List Nat)
    (compressed_size decompressed_size : Nat) : Except Error (List Nat) :=
  if compressed_size < 8 ∨ slice.length < compressed_size then .error .outOfBounds
  else
    let enc := leU32 (slice.take 4)
    let checksum_bytes := (slice.drop 4).take 4
    let checksum := beU32 checksum_bytes
    let encryption_method := (enc / 16) % 16
    let compress_method := enc % 16
    let encrypted := (slice.drop 8).take (compressed_size - 8)
    let step1 : Except Error (List Nat) :=
      match encryption_method with
      | 0 => .ok encrypted
      | 1 =>
        match make_key ext checksum_bytes with
        | .ok key => .ok (fast_decrypt encrypted key)
        | .error e => .error e
      | 2 =>
        match make_key ext checksum_bytes with
        | .ok key => .ok (ext.salsa20 key encrypted)
        | .error e => .error e
      | n => .error (.invalidEncryptMethod n)
    match step1 with
    | .error e => .error e
    | .ok compressed =>
      let step2 : Except Error (List Nat) :=
        match compress_method with
        | 0 => .ok compressed
        | 1 =>
          match ext.lzo compressed decompressed_size with
          | some r => .ok r
          | none => .error .invalidData
        | 2 =>
          match ext.zlib compressed with
          | some v => .ok v
          | none => .error .invalidData
        | n => .error (.invalidCompressMethod n)
      match step2 with
      | .error e => .error e
      | .ok decompressed =>
        match check_adler32 decompressed checksum with
        | .error e => .error e
        | .ok _ => .ok decompressed

/-- The UTF-16LE terminator scan of `decode_slice_string`: visit indices
0, 2, 4, ...; at each index with a zero byte the next byte is inspected
(`slice[i + 1]`, a panic when it is past the end); a double zero yields the
index; running past the end yields `InvalidData`. The accumulator `i` is
the absolute index of the list head. -/
def findTerm16L : List Nat → Nat → Except Error Nat
  | [], _ => .error .invalidData
  | [b], _ => if b = 0 then .error .outOfBounds else .error .invalidData
  | b :: b2 :: rest, i =>
    if b = 0 then
      if b2 = 0 then .ok i else findTerm16L rest (i + 2)
    else findTerm16L rest (i + 2)

/-- `decode_slice_string` of parser.rs: find the terminator (two-byte NUL on
an even boundary for UTF-16LE, one NUL byte for UTF-8, any other codec is
`InvalidEncoding`), decode the bytes before it, and return the decoded text
together with the number of consumed bytes. -/
def decode_slice_string (ext : Externals) (slice : List Nat) (encoding : Enc) :
    Except Error (List Nat × Nat) :=
  match encoding with
  | .utf16le =>
    match findTerm16L slice 0 with
    | .ok idx => .ok (ext.decodeText .utf16le (slice.take idx), idx + 2)
    | .error e => .error e
  | .utf8 =>
    match slice.findIdx? (fun b => b == 0) with
    | some idx => .ok (ext.decodeText .utf8 (slice.take idx), idx + 1)
    | none => .error .invalidData
  | .other label => .error (.invalidEncoding label)

/-- One digit step of the Rust u8 string parser: reject a non-digit
character and any accumulated value above 255. -/
def parseU8Step (acc : Option Nat) (c : Char) : Option Nat :=
  match acc with
  | none => none
  | some n =>
    if '0' ≤ c ∧ c ≤ '9' then
      let m := n * 10 + (c.toNat - '0'.toNat)
      if m < 256 then some m else none
    else none

/-- Rust `<u8 as FromStr>::from_str`: an optional leading plus sign, then
one or more ASCII digits, failing on any other character and on a value
above 255. -/
def parseU8 (s : String) : Option Nat :=
  match s.data with
  | '+' :: rest => if rest = [] then none else rest.foldl parseU8Step (some 0)
  | cs => if cs = [] then none else cs.foldl parseU8Step (some 0)

/-- The Encrypted-attribute computation of `read_header` (parser.rs lines
121 to 127): value "Yes" gives 1, otherwise the value is parsed as a u8,
and a failed parse or an absent attribute gives 0. -/
def parse_encrypted (attr : Option String) : Nat :=
  match attr with
  | none => 0
  | some x => if x = "Yes" then 1 else (parseU8 x).getD 0

/-- The V2 arm of `read_key_block_infos` (parser.rs lines 202 to 227) up to
the production of the decoded info bytes: check the `02 00 00 00` type tag,
read the BE Adler-32, fast-decrypt with the RIPEMD128(checksum bytes ++
0x3695 LE) key exactly when `header.encrypted == 2`, zlib-decompress, and
verify the Adler-32 of the decompressed bytes. The subsequent
`decode_key_blocks` step consumes these bytes and is not modelled here. -/
def key_block_info_bytes_v2 (ext : Externals) (buf : List Nat)
    (encrypted : Nat) : Except Error (List Nat) :=
  if buf.length < 4 then .error .outOfBounds
  else if buf.take 4 ≠ [2, 0, 0, 0] then .error .invalidData
  else if buf.length < 8 then .error .outOfBounds
  else
    let checksum := beU32 ((buf.drop 4).take 4)
    let decoded : Option (List Nat) :=
      if encrypted = 2 then
        let v := (buf.drop 4).take 4 ++ [0x95, 0x36, 0, 0]
        let key := ext.ripemd128 v
        ext.zlib (fast_decrypt (buf.drop 8) key)
      else
        ext.zlib (buf.drop 8)
    match decoded with
    | none => .error .ioError
    | some info =>
      match check_adler32 info checksum with
      | .error e => .error e
      | .ok _ => .ok info

/-- Width in bytes of a version-sized integer. -/
def offsetWidth : Version → Nat
  | .v1 => 4
  | .v2 => 8

/-- The version-sized big-endian offset read at the head of a key entry. -/
def readOffset (version : Version) (l : List Nat) : Nat :=
  match version with
  | .v1 => beU32 (l.take 4)
  | .v2 => beU64 (l.take 8)

/-- The entry-parsing loop of `read_key_entries` over one decompressed key
block: read a version-sized offset, then a terminated string, normalise it
with the key maker, and continue on the remaining bytes. `fuel` bounds the
recursion; the callers pass one more than the block length, which a loop
that consumes at least one byte per iteration can never exhaust. -/
def parseBlockEntries (ext : Externals) (km : List Nat → Bool → List Nat)
    (resource : Bool) (version : Version) (encoding : Enc) :
    Nat → List Nat → Except Error (List KeyEntry)
  | _, [] => .ok []
  | 0, _ :: _ => .error .outOfBounds
  | fuel + 1, slice =>
    if slice.length < offsetWidth version then .error .outOfBounds
    else
      let offset := readOffset version slice
      let rest := slice.drop (offsetWidth version)
      match decode_slice_string ext rest encoding with
      | .error e => .error e
      | .ok (text, idx) =>
        match parseBlockEntries ext km resource version encoding fuel (rest.drop idx) with
        | .error e => .error e
        | .ok entries => .ok (⟨offset, km text resource⟩ :: entries)

/-- The block loop of `read_key_entries`: decode each key block with
`decode_block`, parse its entries, and advance by the compressed size. -/
def readKeyBlocksGo (ext : Externals) (km : List Nat → Bool → List Nat)
    (resource : Bool) (version : Version) (encoding : Enc) :
    List BlockEntryInfo → List Nat → Except Error (List KeyEntry)
  | [], _ => .ok []
  | info :: rest, slice =>
    match decode_block ext slice info.compressed_size info.decompressed_size with
    | .error e => .error e
    | .ok decompressed =>
      match parseBlockEntries ext km resource version encoding
          (decompressed.length + 1) decompressed with
      | .error e => .error e
      | .ok entries =>
        match readKeyBlocksGo ext km resource version encoding rest
            (slice.drop info.compressed_size) with
        | .error e => .error e
        | .ok more => .ok (entries ++ more)

/-- The comparison `a.text.cmp(&b.text)` used by the final sort and by the
lookup binary search: lexicographic byte comparison. -/
def listCmp : List Nat → List Nat → Ordering
  | [], [] => .eq
  | [], _ :: _ => .lt
  | _ :: _, [] => .gt
  | a :: as, b :: bs =>
    match compare a b with
    | .eq => listCmp as bs
    | o => o

/-- The order underlying `entries.sort_by(|a, b| a.text.cmp(&b.text))`. -/
def keyLe (a b : KeyEntry) : Prop := listCmp a.text b.text ≠ .gt

instance : DecidableRel keyLe := fun a b => by
  unfold keyLe; infer_instance

/-- The final sort of `read_key_entries`. Rust `sort_by` is a stable sort;
it is modelled by a stable structural sort (insertion sort). -/
def sortKeyEntries (l : List KeyEntry) : List KeyEntry :=
  l.insertionSort keyLe

/-- `read_key_entries` of parser.rs, with the key-block bytes already read
into `data`: decode every block, parse all entries, and sort them by
normalised text. -/
def read_key_entries (ext : Externals) (km : List Nat → Bool → List Nat)
    (resource : Bool) (version : Version) (encoding : Enc)
    (entry_infos : List BlockEntryInfo) (data : List Nat) :
    Except Error (List KeyEntry) :=
  match readKeyBlocksGo ext km resource version encoding entry_infos data with
  | .error e => .error e
  | .ok entries => .ok (sortKeyEntries entries)

/-- The scanning loop of `record_offset`, with the running decompressed
offset and the running compressed offset as accumulators. -/
def recordOffsetGo (entry_offset : Nat) :
    List BlockEntryInfo → Nat → Nat → Option RecordOffset
  | [], _, _ => none
  | info :: rest, block_offset, buf_offset =>
    if entry_offset < block_offset + info.decompressed_size then
      some ⟨buf_offset, entry_offset - block_offset,
            info.compressed_size, info.decompressed_size⟩
    else
      recordOffsetGo entry_offset rest (block_offset + info.decompressed_size)
        (buf_offset + info.compressed_size)

/-- `record_offset` of parser.rs. -/
def record_offset (records_info : List BlockEntryInfo) (entry : KeyEntry) :
    Option RecordOffset :=
  recordOffsetGo entry.offset records_info 0 0

/-- Sum of the decompressed sizes of a record-block table. -/
def sumDecomp (infos : List BlockEntryInfo) : Nat :=
  (infos.map (·.decompressed_size)).sum

/-- The loop of Rust `slice::binary_search_by`: `left` and `right` bracket
the live interval; a `lt` comparison moves `left` past the midpoint, a `gt`
moves `right` onto it, an `eq` returns the midpoint. The fuel argument
makes the definition structural; the callers pass `len + 1`, which the
halving loop can never exhaust. -/
def binarySearchGo (f : Nat → Ordering) : Nat → Nat → Nat → Option Nat
  | 0, _, _ => none
  | fuel + 1, left, right =>
    if left < right then
      let mid := left + (right - left) / 2
      match f mid with
      | .lt => binarySearchGo f fuel (mid + 1) right
      | .gt => binarySearchGo f fuel left mid
      | .eq => some mid
    else none

/-- `slice::binary_search_by` on a slice of length `len`, keeping only the
found index (the `Err` insertion point is discarded by `lookup_record`). -/
def binary_search_by (f : Nat → Ordering) (len : Nat) : Option Nat :=
  binarySearchGo f (len + 1) 0 len

/-- `read_record` inside `find_definition`: seek to
`record_block_offset + buf_offset`, read `record_size` bytes (a short read
is an I/O error), and decode the block. -/
def read_record (ext : Externals) (file : List Nat) (record_block_offset : Nat)
    (off : RecordOffset) : Except Error (List Nat) :=
  let pos := record_block_offset + off.buf_offset
  if file.length < pos + off.record_size then .error .ioError
  else decode_block ext ((file.drop pos).take off.record_size)
        off.record_size off.decomp_size

/-- Lookup in the record cache (`HashMap::entry` keyed by `buf_offset`,
modelled by an association list). -/
def assocFind (cache : List (Nat × List Nat)) (k : Nat) : Option (List Nat) :=
  match cache with
  | [] => none
  | (k2, v) :: rest => if k2 = k then some v else assocFind rest k

/-- `find_definition` of parser.rs: with a cache, serve the decoded block
from the cache (decoding and inserting on a miss) and return the slice from
`block_offset`; without a cache, decode on demand and return an owned
buffer, copying from `block_offset` only when it is nonzero. The returned
`Mdx` carries the possibly grown cache. -/
def find_definition (ext : Externals) (mdx : Mdx) (off : RecordOffset) :
    Except Error (List Nat × Mdx) :=
  match mdx.record_cache with
  | some cache =>
    match assocFind cache off.buf_offset with
    | some data => .ok (data.drop off.block_offset, mdx)
    | none =>
      match read_record ext mdx.file mdx.record_block_offset off with
      | .error e => .error e
      | .ok decompressed =>
        .ok (decompressed.drop off.block_offset,
             { mdx with record_cache := some ((off.buf_offset, decompressed) :: cache) })
  | none =>
    match read_record ext mdx.file mdx.record_block_offset off with
    | .error e => .error e
    | .ok data =>
      .ok (if off.block_offset ≠ 0 then data.drop off.block_offset else data, mdx)

/-- `lookup_record` of parser.rs: binary-search the key index by comparing
each entry text with the query bytes; on a hit, resolve the record offset
and fetch the definition; a missed search or an uncovered offset yields no
result. The returned `Mdx` carries the possibly grown cache. -/
def lookup_record (ext : Externals) (mdx : Mdx) (key : List Nat) :
    Except Error (Option (List Nat) × Mdx) :=
  match binary_search_by
      (fun i => listCmp (mdx.key_entries.getD i default).text key)
      mdx.key_entries.length with
  | some idx =>
    match record_offset mdx.records_info (mdx.key_entries.getD idx default) with
    | some off =>
      match find_definition ext mdx off with
      | .error e => .error e
      | .ok (slice, mdx2) => .ok (some slice, mdx2)
    | none => .ok (none, mdx)
  | none => .ok (none, mdx)

/-- Modelled from the spec: the public `lookup` wrapper (in mdx.rs, outside
src/) normalises the query with the caller-supplied KeyNormaliser — the
same normaliser used at indexing time, with the resource hint — before
calling `lookup_record`. -/
def lookup (ext : Externals) (km : List Nat → Bool → List Nat)
    (resource : Bool) (mdx : Mdx) (key : List Nat) :
    Except Error (Option (List Nat) × Mdx) :=
  lookup_record ext mdx (km key resource)

/-- Concrete collaborator instantiation for witnesses and counterexamples:
identity-like decompressors, a zero stream cipher, an all-zero digest and
an identity text decode. -/
def ext0 : Externals where
  zlib := fun l => some l
  lzo := fun l _ => some l
  salsa20 := fun _ d => d
  ripemd128 := fun _ => List.replicate 16 0
  decodeText := fun _ l => l

/-- Concrete handle for witnesses: one key entry, an empty record table. -/
def mdx1 : Mdx := ⟨[⟨0, [65]⟩], [], [], 0, none⟩

/-- Nibble rotation is bounded by one byte. -/
theorem swapNibbles_lt (b : Nat) : swapNibbles b < 256 := by
  unfold swapNibbles; omega

/-- Nibble rotation is an involution on bytes. -/
theorem swapNibbles_involutive {b : Nat} (h : b < 256) :
    swapNibbles (swapNibbles b) = b := by
  unfold swapNibbles
  rw [Nat.mod_eq_of_lt h, Nat.mod_eq_of_lt (show b / 16 + b % 16 * 16 < 256 by omega)]
  omega

/-- XOR of bytes is a byte. -/
theorem xor_lt_256 {a b : Nat} (ha : a < 256) (hb : b < 256) : a ^^^ b < 256 :=
  Nat.xor_lt_two_pow (n := 8) ha hb

/-- The key byte is a byte when the key holds bytes. -/
theorem keyByte_lt {key : List Nat} (hk : ∀ b ∈ key, b < 256) (i : Nat) :
    keyByte key i < 256 := by
  unfold keyByte
  rcases key with _ | ⟨x, xs⟩
  · simp
  · have hlen : i % (x :: xs).length < (x :: xs).length :=
      Nat.mod_lt _ (by simp)
    rw [List.getD_eq_getElem _ _ hlen]
    exact hk _ (List.getElem_mem hlen)

theorem xor_left_comm (a b c : Nat) : a ^^^ (b ^^^ c) = b ^^^ (a ^^^ c) := by
  rw [← Nat.xor_assoc, Nat.xor_comm a b, Nat.xor_assoc]

/-- XORing the same three values again cancels. -/
theorem xor_unscramble (b p m k : Nat) :
    ((((((b ^^^ p) ^^^ m) ^^^ k) ^^^ p) ^^^ m) ^^^ k) = b := by
  simp [Nat.xor_assoc, Nat.xor_comm, xor_left_comm]

/-- The decrypt loop undoes the encrypt loop from any aligned state. -/
theorem fastDecryptGo_fastEncryptGo (key : List Nat) (hk : ∀ b ∈ key, b < 256) :
    ∀ (xs : List Nat) (p i : Nat), (∀ b ∈ xs, b < 256) → p < 256 →
    fastDecryptGo key p i (fastEncryptGo key p i xs) = xs := by
  intro xs
  induction xs with
  | nil => intro p i _ _; rfl
  | cons b rest ih =>
    intro p i hx hp
    have hb : b < 256 := hx b (by simp)
    have hy : ((b ^^^ p) ^^^ (i % 256)) ^^^ keyByte key i < 256 :=
      xor_lt_256 (xor_lt_256 (xor_lt_256 hb hp) (Nat.mod_lt _ (by omega)))
        (keyByte_lt hk i)
    simp only [fastEncryptGo, fastDecryptGo]
    rw [swapNibbles_involutive hy, xor_unscramble]
    refine congrArg (b :: ·) ?_
    exact ih (swapNibbles (((b ^^^ p) ^^^ (i % 256)) ^^^ keyByte key i)) (i + 1)
      (fun c hc => hx c (by simp [hc])) (swapNibbles_lt _)

/-- The encrypt loop undoes the decrypt loop from any aligned state. -/
theorem fastEncryptGo_fastDecryptGo (key : List Nat) :
    ∀ (xs : List Nat) (p i : Nat), (∀ b ∈ xs, b < 256) → p < 256 →
    fastEncryptGo key p i (fastDecryptGo key p i xs) = xs := by
  intro xs
  induction xs with
  | nil => intro p i _ _; rfl
  | cons b rest ih =>
    intro p i hx hp
    have hb : b < 256 := hx b (by simp)
    simp only [fastDecryptGo, fastEncryptGo]
    rw [xor_unscramble, swapNibbles_involutive hb]
    refine congrArg (b :: ·) ?_
    exact ih b (i + 1) (fun c hc => hx c (by simp [hc])) hb

/-- Claim C1, counterexample: applying `fast_decrypt` twice with the same
key does not restore the input; at the one-byte input 0x00 with the
one-byte key 0x00 the double application yields 0x55. -/
theorem fast_decrypt_not_involution :
    fast_decrypt (fast_decrypt [0] [0]) [0] ≠ [0] := by decide

/-- Claim C1 (amended): `fast_decrypt` is not an involution, but for every
byte sequence and every non-empty byte key it is a bijection: the matching
encryption direction (XOR chain first, nibble swap second, with `prev`
chained on the ciphertext byte) inverts it in both orders, so the single
function of the source is the decryption direction of the cipher. -/
theorem fast_decrypt_bijective (x key : List Nat) (_hne : key ≠ [])
    (hx : ∀ b ∈ x, b < 256) (hk : ∀ b ∈ key, b < 256) :
    fast_decrypt (fastEncrypt x key) key = x ∧
    fastEncrypt (fast_decrypt x key) key = x := by
  constructor
  · exact fastDecryptGo_fastEncryptGo key hk x 0x36 0 hx (by omega)
  · exact fastEncryptGo_fastDecryptGo key x 0x36 0 hx (by omega)

/-- Claim C1, witness: the bijection theorem applied at a concrete input
and key. -/
theorem fast_decrypt_bijective_witness :
    ([3] : List Nat) ≠ [] ∧
    (fast_decrypt (fastEncrypt [1, 2] [3]) [3] = [1, 2] ∧
     fastEncrypt (fast_decrypt [1, 2] [3]) [3] = [1, 2]) :=
  ⟨by decide, fast_decrypt_bijective [1, 2] [3] (by decide) (by decide) (by decide)⟩

/-- Lexicographic byte comparison is `eq` exactly on equal lists. -/
theorem listCmp_eq_iff : ∀ a b : List Nat, listCmp a b = .eq ↔ a = b := by
  intro a
  induction a with
  | nil => intro b; cases b <;> simp [listCmp]
  | cons x xs ih =>
    intro b
    cases b with
    | nil => simp [listCmp]
    | cons y ys =>
      simp only [listCmp]
      rcases hxy : compare x y with _ | _ | _
      · simp only [List.cons.injEq]
        constructor
        · intro h; cases h
        · rintro ⟨h1, _⟩
          rw [Nat.compare_eq_lt] at hxy; omega
      · rw [Nat.compare_eq_eq] at hxy
        simp [ih ys, hxy]
      · simp only [List.cons.injEq]
        constructor
        · intro h; cases h
        · rintro ⟨h1, _⟩
          rw [Nat.compare_eq_gt] at hxy; omega

/-- When no index of the live interval compares equal the search loop
returns nothing, for every fuel. -/
theorem binarySearchGo_none (f : Nat → Ordering) :
    ∀ (fuel left right : Nat), (∀ i, left ≤ i → i < right → f i ≠ .eq) →
    binarySearchGo f fuel left right = none := by
  intro fuel
  induction fuel with
  | zero => intro left right _; rfl
  | succ n ih =>
    intro left right h
    unfold binarySearchGo
    by_cases hlr : left < right
    · simp only [hlr, if_true]
      have hmid1 : left ≤ left + (right - left) / 2 := by omega
      have hmid2 : left + (right - left) / 2 < right := by omega
      rcases hf : f (left + (right - left) / 2) with _ | _ | _
      · exact ih _ _ (fun i h1 h2 => h i (by omega) h2)
      · exact absurd hf (h _ hmid1 hmid2)
      · exact ih _ _ (fun i h1 h2 => h i h1 (by omega))
    · simp [hlr]

/-- A found index lies inside the searched interval, for every fuel. -/
theorem binarySearchGo_some (f : Nat → Ordering) :
    ∀ (fuel left right idx : Nat), binarySearchGo f fuel left right = some idx →
    left ≤ idx ∧ idx < right := by
  intro fuel
  induction fuel with
  | zero => intro left right idx h; cases h
  | succ n ih =>
    intro left right idx h
    unfold binarySearchGo at h
    by_cases hlr : left < right
    · simp only [hlr, if_true] at h
      have hmid2 : left + (right - left) / 2 < right := by omega
      rcases hf : f (left + (right - left) / 2) with _ | _ | _ <;> rw [hf] at h
      · have := ih _ _ _ h; omega
      · cases h; omega
      · have := ih _ _ _ h; omega
    · simp [hlr] at h

/-- Claim C2: the public lookup normalises the query with the caller
supplied KeyNormaliser (the wrapper is modelled from the spec) and
binary-searches the key index with the normalised form; when no entry text
equals the normalised query, lookup returns no result (and leaves the
handle unchanged). -/
theorem lookup_miss_none (ext : Externals) (km : List Nat → Bool → List Nat)
    (resource : Bool) (mdx : Mdx) (key : List Nat)
    (h : ∀ e ∈ mdx.key_entries, e.text ≠ km key resource) :
    lookup ext km resource mdx key = .ok (none, mdx) := by
  have hb : binary_search_by
      (fun i => listCmp (mdx.key_entries.getD i default).text (km key resource))
      mdx.key_entries.length = none := by
    apply binarySearchGo_none
    intro i _ hlen heq
    have hm : mdx.key_entries.getD i default ∈ mdx.key_entries := by
      rw [List.getD_eq_getElem mdx.key_entries default hlen]
      exact List.getElem_mem hlen
    exact h _ hm ((listCmp_eq_iff _ _).mp heq)
  unfold lookup lookup_record
  rw [hb]

/-- Claim C2, witness: a query whose normalised form hits no entry returns
no result on a concrete handle. -/
theorem lookup_miss_none_witness :
    lookup ext0 (fun k _ => k) false mdx1 [66] = .ok (none, mdx1) :=
  lookup_miss_none ext0 (fun k _ => k) false mdx1 [66] (by decide)

/-- Claim C3, counterexample: the header value `encrypted = 3` has bit 1
set, so per the claim the key-block-info decryption should run exactly as
at `encrypted = 2`; on the code the two values give different results on
the same input, because the source compares `encrypted == 2`. -/
theorem key_block_info_bit1_counterexample :
    Nat.testBit 3 1 = true ∧ Nat.testBit 2 1 = true ∧
    key_block_info_bytes_v2 ext0 [2, 0, 0, 0, 0, 1, 0, 1, 0] 3
      ≠ key_block_info_bytes_v2 ext0 [2, 0, 0, 0, 0, 1, 0, 1, 0] 2 := by
  refine ⟨by decide, by decide, ?_⟩
  have h3 : key_block_info_bytes_v2 ext0 [2, 0, 0, 0, 0, 1, 0, 1, 0] 3
      = .ok [0] := rfl
  have h2 : key_block_info_bytes_v2 ext0 [2, 0, 0, 0, 0, 1, 0, 1, 0] 2
      = .error (.invalidCheckSum "header") := rfl
  rw [h3, h2]
  exact fun h => Except.noConfusion h

/-- Claim C3 (amended): during V2 key-block-info decoding the fast-cipher
decryption step runs exactly when the encrypted byte equals 2; for every
other value — including 3, where bit 1 is also set — the info block is
processed as unencrypted. -/
theorem key_block_info_decrypt_only_at_two (ext : Externals) (buf : List Nat)
    (encrypted : Nat) (h : encrypted ≠ 2) :
    key_block_info_bytes_v2 ext buf encrypted
      = key_block_info_bytes_v2 ext buf 0 := by
  unfold key_block_info_bytes_v2
  simp [h]

/-- Claim C3, witness: at `encrypted = 3` the info block is processed as
unencrypted. -/
theorem key_block_info_decrypt_only_at_two_witness :
    key_block_info_bytes_v2 ext0 [2, 0, 0, 0, 0, 1, 0, 1, 0] 3
      = key_block_info_bytes_v2 ext0 [2, 0, 0, 0, 0, 1, 0, 1, 0] 0 :=
  key_block_info_decrypt_only_at_two ext0 [2, 0, 0, 0, 0, 1, 0, 1, 0] 3 (by decide)

/-- The digit step keeps the accumulator below 256. -/
theorem parseU8Step_lt (acc : Option Nat) (c : Char)
    (hacc : ∀ m, acc = some m → m < 256) :
    ∀ m, parseU8Step acc c = some m → m < 256 := by
  intro m hm
  unfold parseU8Step at hm
  rcases acc with _ | a
  · cases hm
  · simp only at hm
    split at hm
    · split at hm
      · cases hm; assumption
      · cases hm
    · cases hm

/-- Folding the digit step keeps every `some` result below 256. -/
theorem foldl_parseU8Step_lt : ∀ (l : List Char) (acc : Option Nat),
    (∀ m, acc = some m → m < 256) →
    ∀ k, l.foldl parseU8Step acc = some k → k < 256 := by
  intro l
  induction l with
  | nil => intro acc hacc k hk; exact hacc k hk
  | cons c cs ih =>
    intro acc hacc k hk
    exact ih _ (parseU8Step_lt acc c hacc) k hk

/-- Every `some` result of the u8 parser is a byte value. -/
theorem parseU8_lt (s : String) (n : Nat) (h : parseU8 s = some n) : n < 256 := by
  unfold parseU8 at h
  split at h <;> split at h <;> first
    | cases h
    | exact foldl_parseU8Step_lt _ (some 0) (fun m hm => by cases hm; omega) n h

/-- Claim C10, counterexample: the attribute value "300" parses as a
base-10 integer, yet the code maps it to 0, because the parse target is u8
and 300 does not fit. -/
theorem parse_encrypted_300 :
    parse_encrypted (some "300") = 0 ∧ (0 : Nat) ≠ 300 := ⟨rfl, by decide⟩

/-- Claim C10 (amended): the Encrypted attribute maps the value "Yes" to 1;
maps any value that parses as a base-10 u8 — an integer from 0 to 255 — to
that integer; and maps every other value (including out-of-range integers
such as 300) as well as absence of the attribute to 0. -/
theorem parse_encrypted_semantics :
    parse_encrypted none = 0 ∧
    (∀ s : String, s = "Yes" → parse_encrypted (some s) = 1) ∧
    (∀ (s : String) (n : Nat), parseU8 s = some n → s ≠ "Yes" →
      parse_encrypted (some s) = n ∧ n < 256) ∧
    (∀ s : String, parseU8 s = none → s ≠ "Yes" →
      parse_encrypted (some s) = 0) := by
  refine ⟨rfl, ?_, ?_, ?_⟩
  · intro s hs; simp [parse_encrypted, hs]
  · intro s n hp hs
    exact ⟨by simp [parse_encrypted, hs, hp], parseU8_lt s n hp⟩
  · intro s hp hs; simp [parse_encrypted, hs, hp]

/-- Claim C10, witness: the semantics theorem applied to the value "7". -/
theorem parse_encrypted_semantics_witness :
    parse_encrypted (some "7") = 7 ∧ (7 : Nat) < 256 :=
  parse_encrypted_semantics.2.2.1 "7" 7 rfl (by decide)

/-- Claim C8, counterexample: an Adler-32 mismatch inside a decoded
key/record block fails with the same `InvalidCheckSum "header"` value as a
mismatch in the header-info section, so the error does not name the
section in which the mismatch occurred. -/
theorem invalid_checksum_fixed_section :
    decode_block ext0 [0, 0, 0, 0, 0, 0, 0, 0, 1] 9 1
      = .error (.invalidCheckSum "header") ∧
    check_adler32 [7] 0 = .error (.invalidCheckSum "header") := ⟨rfl, rfl⟩

/-- Claim C8 (amended): every Adler-32 mismatch fails with an
`InvalidCheckSum` error, but the carried section name is the fixed string
"header" at every call site, whichever region mismatched. -/
theorem check_adler32_mismatch (data : List Nat) (checksum : Nat)
    (h : adler32 data ≠ checksum) :
    check_adler32 data checksum = .error (.invalidCheckSum "header") := by
  simp [check_adler32, h]

/-- Claim C8, witness: the mismatch theorem applied at a concrete buffer
and stored value. -/
theorem check_adler32_mismatch_witness :
    check_adler32 [0] 0 = .error (.invalidCheckSum "header") :=
  check_adler32_mismatch [0] 0 (by decide)

/-- A passed Adler-32 check means the hash equals the stored value. -/
theorem check_adler32_ok {d : List Nat} {c : Nat} {u : Unit}
    (h : check_adler32 d c = .ok u) : adler32 d = c := by
  by_contra hne
  simp [check_adler32, hne] at h

/-- Claim C7: every block that `decode_block` returns has the Adler-32 of
the fully decrypted-and-decompressed payload equal to the checksum stored
big-endian in bytes 4..8 of the 8-byte prefix; on a mismatch decoding
fails. -/
theorem decode_block_checksum (ext : Externals) (slice : List Nat)
    (compressed_size decompressed_size : Nat) (out : List Nat)
    (h : decode_block ext slice compressed_size decompressed_size = .ok out) :
    adler32 out = beU32 ((slice.drop 4).take 4) := by
  unfold decode_block at h
  split at h
  · cases h
  · dsimp only at h
    split at h
    · cases h
    · rename_i compressed hstep1
      split at h
      · cases h
      · rename_i decompressed hstep2
        split at h
        · cases h
        · rename_i u hcheck
          cases h
          exact check_adler32_ok hcheck

/-- Claim C7, witness: the checksum theorem applied to a concrete stored
(uncompressed, unencrypted) block. -/
theorem decode_block_checksum_witness :
    adler32 [0] = beU32 ((([0, 0, 0, 0, 0, 1, 0, 1, 0] : List Nat).drop 4).take 4) :=
  decode_block_checksum ext0 [0, 0, 0, 0, 0, 1, 0, 1, 0] 9 1 [0] rfl

/-- A hit of the record-block scan: the chosen block covers the offset and
the in-block offset stays below the decompressed size. The accumulators
generalise the running offsets. -/
theorem recordOffsetGo_some (off : Nat) :
    ∀ (infos : List BlockEntryInfo) (bo fo : Nat) (ro : RecordOffset),
    bo ≤ off → recordOffsetGo off infos bo fo = some ro →
    ro.block_offset < ro.decomp_size ∧
    ∃ i, i < infos.length ∧
      bo + sumDecomp (infos.take i) ≤ off ∧
      off < bo + sumDecomp (infos.take i)
        + (infos.getD i ⟨0, 0⟩).decompressed_size ∧
      ro.block_offset = off - (bo + sumDecomp (infos.take i)) := by
  intro infos
  induction infos with
  | nil => intro bo fo ro _ h; cases h
  | cons info rest ih =>
    intro bo fo ro hbo h
    unfold recordOffsetGo at h
    split at h
    · rename_i hcov
      cases h
      refine ⟨by simp; omega, 0, by simp, ?_, ?_, ?_⟩
      · simpa [sumDecomp] using hbo
      · simpa [sumDecomp] using hcov
      · simp [sumDecomp]
    · rename_i hcov
      have hbo2 : bo + info.decompressed_size ≤ off := by omega
      obtain ⟨h1, i, hi, h2, h3, h4⟩ := ih _ _ _ hbo2 h
      refine ⟨h1, i + 1, by simpa using hi, ?_, ?_, ?_⟩
      · simpa [sumDecomp, Nat.add_assoc] using h2
      · simpa [sumDecomp, Nat.add_assoc] using h3
      · simpa [sumDecomp, Nat.add_assoc] using h4

/-- A miss of the record-block scan: the offset lies at or past the end of
the logical record stream. -/
theorem recordOffsetGo_none (off : Nat) :
    ∀ (infos : List BlockEntryInfo) (bo fo : Nat), bo ≤ off →
    recordOffsetGo off infos bo fo = none →
    bo + sumDecomp infos ≤ off := by
  intro infos
  induction infos with
  | nil => intro bo fo hbo _; simpa [sumDecomp] using hbo
  | cons info rest ih =>
    intro bo fo hbo h
    unfold recordOffsetGo at h
    split at h
    · cases h
    · rename_i hcov
      have := ih (bo + info.decompressed_size) (fo + info.compressed_size)
        (by omega) h
      simp only [sumDecomp, List.map_cons, List.sum_cons] at *
      omega

/-- Claim C5: whenever the record-block locator returns a `RecordOffset`
the chosen block covers the entry offset — the running decompressed offset
is at most the entry offset, which is below the running offset plus the
decompressed size — so the in-block offset is below the decompressed size
and the subtraction cannot underflow; when no block covers the offset the
locator returns nothing and `lookup_record` yields no result rather than
an error. -/
theorem record_offset_invariant (records_info : List BlockEntryInfo)
    (entry : KeyEntry) :
    (∀ ro, record_offset records_info entry = some ro →
      ro.block_offset < ro.decomp_size ∧
      ∃ i, i < records_info.length ∧
        sumDecomp (records_info.take i) ≤ entry.offset ∧
        entry.offset < sumDecomp (records_info.take i)
          + (records_info.getD i ⟨0, 0⟩).decompressed_size ∧
        ro.block_offset = entry.offset - sumDecomp (records_info.take i)) ∧
    (record_offset records_info entry = none →
      sumDecomp records_info ≤ entry.offset) ∧
    (∀ (ext : Externals) (mdx : Mdx) (key : List Nat),
      mdx.records_info = records_info →
      (∀ e ∈ mdx.key_entries, record_offset records_info e = none) →
      lookup_record ext mdx key = .ok (none, mdx)) := by
  refine ⟨?_, ?_, ?_⟩
  · intro ro h
    have := recordOffsetGo_some entry.offset records_info 0 0 ro (by omega) h
    simpa using this
  · intro h
    have := recordOffsetGo_none entry.offset records_info 0 0 (by omega) h
    simpa using this
  · intro ext mdx key hri hnone
    unfold lookup_record
    rcases hb : binary_search_by
        (fun i => listCmp (mdx.key_entries.getD i default).text key)
        mdx.key_entries.length with _ | idx
    · rfl
    · have hidx := binarySearchGo_some _ _ _ _ _ hb
      have hm : mdx.key_entries.getD idx default ∈ mdx.key_entries := by
        rw [List.getD_eq_getElem mdx.key_entries default hidx.2]
        exact List.getElem_mem hidx.2
      have hro := hnone _ hm
      rw [← hri] at hro
      dsimp only
      rw [hro]

/-- Claim C5, witness: the covering inequalities at a concrete record
table and entry, and the no-result lookup on a handle whose record table
covers no entry. -/
theorem record_offset_invariant_witness :
    ((⟨0, 3, 5, 10⟩ : RecordOffset).block_offset
        < (⟨0, 3, 5, 10⟩ : RecordOffset).decomp_size ∧
      ∃ i, i < ([⟨5, 10⟩] : List BlockEntryInfo).length ∧
        sumDecomp (([⟨5, 10⟩] : List BlockEntryInfo).take i) ≤ (⟨3, []⟩ : KeyEntry).offset ∧
        (⟨3, []⟩ : KeyEntry).offset < sumDecomp (([⟨5, 10⟩] : List BlockEntryInfo).take i)
          + (([⟨5, 10⟩] : List BlockEntryInfo).getD i ⟨0, 0⟩).decompressed_size ∧
        (⟨0, 3, 5, 10⟩ : RecordOffset).block_offset
          = (⟨3, []⟩ : KeyEntry).offset - sumDecomp (([⟨5, 10⟩] : List BlockEntryInfo).take i)) ∧
    lookup_record ext0 mdx1 [] = .ok (none, mdx1) :=
  ⟨(record_offset_invariant [⟨5, 10⟩] ⟨3, []⟩).1 ⟨0, 3, 5, 10⟩ rfl,
   (record_offset_invariant [] ⟨0, []⟩).2.2 ext0 mdx1 [] rfl (fun _ _ => rfl)⟩

/-- Lexicographic byte comparison: being at most equal is transitive. -/
theorem listCmp_trans : ∀ a b c : List Nat,
    listCmp a b ≠ .gt → listCmp b c ≠ .gt → listCmp a c ≠ .gt := by
  intro a
  induction a with
  | nil =>
    intro b c _ _
    cases c <;> simp [listCmp]
  | cons x xs ih =>
    intro b c hab hbc
    cases b with
    | nil => simp [listCmp] at hab
    | cons y ys =>
      cases c with
      | nil => simp [listCmp] at hbc
      | cons z zs =>
        simp only [listCmp] at hab hbc ⊢
        rcases hxy : compare x y with _ | _ | _ <;> rw [hxy] at hab
        · rcases hyz : compare y z with _ | _ | _ <;> rw [hyz] at hbc
          · rw [Nat.compare_eq_lt] at hxy hyz
            have hxz : compare x z = .lt := Nat.compare_eq_lt.mpr (by omega)
            simp [hxz]
          · rw [Nat.compare_eq_eq] at hyz
            subst hyz
            simp [hxy]
          · exact absurd rfl hbc
        · rw [Nat.compare_eq_eq] at hxy
          subst hxy
          rcases hyz : compare x z with _ | _ | _ <;> rw [hyz] at hbc
          · simp
          · exact ih ys zs hab hbc
          · exact absurd rfl hbc
        · exact absurd rfl hab


/-- Lexicographic byte comparison: any two lists are comparable. -/
theorem listCmp_total : ∀ a b : List Nat,
    listCmp a b ≠ .gt ∨ listCmp b a ≠ .gt := by
  intro a
  induction a with
  | nil =>
    intro b
    left
    cases b <;> simp [listCmp]
  | cons x xs ih =>
    intro b
    cases b with
    | nil => right; simp [listCmp]
    | cons y ys =>
      simp only [listCmp]
      rcases hxy : compare x y with _ | _ | _
      · left
        simp
      · rw [Nat.compare_eq_eq] at hxy
        subst hxy
        have hxx : compare x x = Ordering.eq := Nat.compare_eq_eq.mpr rfl
        rw [hxx]
        exact ih ys
      · right
        rw [Nat.compare_eq_gt] at hxy
        have hyx : compare y x = Ordering.lt := Nat.compare_eq_lt.mpr (by omega)
        simp [hyx]

/-- Claim C4: after every successful run of `read_key_entries` the entry
vector is sorted ascending by normalised text under lexicographic byte
comparison; duplicates are permitted, since the order is non-strict. -/
theorem read_key_entries_sorted (ext : Externals)
    (km : List Nat → Bool → List Nat) (resource : Bool) (version : Version)
    (encoding : Enc) (entry_infos : List BlockEntryInfo) (data : List Nat)
    (entries : List KeyEntry)
    (h : read_key_entries ext km resource version encoding entry_infos data
      = .ok entries) :
    ∀ i j, i < j → j < entries.length →
      listCmp (entries.getD i default).text (entries.getD j default).text
        ≠ .gt := by
  unfold read_key_entries at h
  split at h
  · cases h
  · rename_i l hgo
    cases h
    have hs : List.Sorted keyLe (sortKeyEntries l) :=
      @List.sorted_insertionSort KeyEntry keyLe _
        ⟨fun a b => listCmp_total a.text b.text⟩
        ⟨fun a b c => listCmp_trans a.text b.text c.text⟩ l
    intro i j hij hj
    have hi : i < (sortKeyEntries l).length := by omega
    rw [List.getD_eq_getElem _ _ hi, List.getD_eq_getElem _ _ hj]
    exact (List.pairwise_iff_getElem.mp hs) i j hi hj hij

/-- Claim C4, witness: a concrete successful load of one stored key block
holding the out-of-order entries (0, "B") and (4, "A") yields the entry
texts in ascending order. -/
theorem read_key_entries_sorted_witness :
    listCmp ((([⟨4, [65]⟩, ⟨0, [66]⟩] : List KeyEntry).getD 0 default).text)
        ((([⟨4, [65]⟩, ⟨0, [66]⟩] : List KeyEntry).getD 1 default).text)
      ≠ .gt :=
  read_key_entries_sorted ext0 (fun t _ => t) false .v1 .utf8 [⟨20, 12⟩]
    [0, 0, 0, 0, 2, 170, 0, 136, 0, 0, 0, 0, 66, 0, 0, 0, 0, 4, 65, 0]
    [⟨4, [65]⟩, ⟨0, [66]⟩] rfl 0 1 (by decide) (by decide)

/-- Claim C6: for the same underlying file and query, a freshly constructed
handle returns byte-identical lookup results whether the record cache is
enabled (initially empty) or disabled. -/
theorem lookup_cache_transparent (ext : Externals) (ke : List KeyEntry)
    (ri : List BlockEntryInfo) (file : List Nat) (rbo : Nat) (key : List Nat) :
    (lookup_record ext ⟨ke, ri, file, rbo, some []⟩ key).map Prod.fst
      = (lookup_record ext ⟨ke, ri, file, rbo, none⟩ key).map Prod.fst := by
  unfold lookup_record
  dsimp only
  rcases binary_search_by
      (fun i => listCmp ((ke.getD i default).text) key) ke.length with _ | idx
  · rfl
  · dsimp only
    rcases record_offset ri (ke.getD idx default) with _ | off
    · rfl
    · dsimp only
      unfold find_definition
      dsimp only
      rcases hr : read_record ext file rbo off with e | d
      · rfl
      · dsimp only
        by_cases hbo : off.block_offset = 0
        · simp [assocFind, hbo, Except.map]
        · simp [assocFind, hbo, Except.map]


/-- The UTF-16LE terminator scan signals `InvalidData` on every even-length
slice that holds no double-zero pair on an even boundary. -/
theorem findTerm16L_no_term : ∀ (l : List Nat) (i : Nat),
    l.length % 2 = 0 →
    (∀ k, ¬(l.getD (2 * k) 1 = 0 ∧ l.getD (2 * k + 1) 1 = 0)) →
    findTerm16L l i = .error .invalidData := by
  intro l i
  induction l, i using findTerm16L.induct with
  | case1 x => intro _ _; rfl
  | case2 x => intro hlen _; simp at hlen
  | case3 b x hb => intro hlen _; simp at hlen
  | case4 rest i =>
    intro _ h
    have h0 := h 0
    simp at h0
  | case5 b2 rest i hb2 ih =>
    intro hlen h
    have hlen2 : rest.length % 2 = 0 := by
      simp at hlen
      omega
    have hrest : ∀ k, ¬(rest.getD (2 * k) 1 = 0 ∧ rest.getD (2 * k + 1) 1 = 0) := by
      intro k
      have hk := h (k + 1)
      have e1 : 2 * (k + 1) = 2 * k + 1 + 1 := by omega
      rw [e1] at hk
      simpa [List.getD_cons_succ] using hk
    simp only [findTerm16L, if_pos rfl, if_neg hb2]
    exact ih hlen2 hrest
  | case6 b b2 rest i hb ih =>
    intro hlen h
    have hlen2 : rest.length % 2 = 0 := by
      simp at hlen
      omega
    have hrest : ∀ k, ¬(rest.getD (2 * k) 1 = 0 ∧ rest.getD (2 * k + 1) 1 = 0) := by
      intro k
      have hk := h (k + 1)
      have e1 : 2 * (k + 1) = 2 * k + 1 + 1 := by omega
      rw [e1] at hk
      simpa [List.getD_cons_succ] using hk
    simp only [findTerm16L, if_neg hb]
    exact ih hlen2 hrest

/-- Claim C9, counterexample: under UTF-16LE the one-byte slice `[0]` hits
the index check at the final byte and fails with an out-of-bounds slice
index (a Rust panic), not with `InvalidData`. -/
theorem decode_slice_string_panics :
    decode_slice_string ext0 [0] .utf16le = .error .outOfBounds ∧
    Error.outOfBounds ≠ Error.invalidData := ⟨rfl, by decide⟩

/-- Claim C9 (amended): a slice that lacks its terminator parses to the
`InvalidData` error — for UTF-8 whenever no byte is NUL, and for UTF-16LE
whenever the length is even and no even boundary carries a double NUL;
however, an odd-length UTF-16LE slice whose scan reaches the final byte
and finds it zero fails with an out-of-bounds index (a panic) instead. -/
theorem decode_slice_string_missing_terminator (ext : Externals)
    (slice : List Nat) :
    ((∀ b ∈ slice, b ≠ 0) →
      decode_slice_string ext slice .utf8 = .error .invalidData) ∧
    (slice.length % 2 = 0 →
      (∀ k, ¬(slice.getD (2 * k) 1 = 0 ∧ slice.getD (2 * k + 1) 1 = 0)) →
      decode_slice_string ext slice .utf16le = .error .invalidData) := by
  constructor
  · intro h
    have hf : slice.findIdx? (fun b => b == 0) = none := by
      rw [List.findIdx?_eq_none_iff]
      intro x hx
      simpa using h x hx
    simp [decode_slice_string, hf]
  · intro hlen h
    have hf := findTerm16L_no_term slice 0 hlen h
    simp [decode_slice_string, hf]

/-- Claim C9, witness: the missing-terminator theorem applied to the
concrete slice `[1, 1]` under both codecs. -/
theorem decode_slice_string_missing_terminator_witness :
    decode_slice_string ext0 [1, 1] .utf8 = .error .invalidData ∧
    decode_slice_string ext0 [1, 1] .utf16le = .error .invalidData := by
  have h := decode_slice_string_missing_terminator ext0 [1, 1]
  refine ⟨h.1 (by decide), h.2 (by decide) ?_⟩
  intro k
  rcases k with _ | k
  · decide
  · intro hc
    have e1 : 2 * (k + 1) = 2 * k + 1 + 1 := by omega
    rw [e1, List.getD_cons_succ, List.getD_cons_succ] at hc
    have : List.getD ([] : List Nat) (2 * k) 1 = 1 := by
      rw [List.getD_eq_default]
      simp
    rw [this] at hc
    exact absurd hc.1 (by decide)

end Mdict
